import Mathlib

/-!
Verification of the SiC450 PMBus voltage tool (src/main.go).

The program has a leaf codec (floatToLinear11 / linear11ToFloat) converting
between IEEE doubles and the 16-bit PMBus LINEAR11 wire format, a thin
transaction layer (initDCandSetVoltage / readPMBusLinear11) over the raw
write/read bus primitives, and a main routine that validates the
command-line address and target voltage before touching the bus.

Doubles are modelled by the type FP below: a finite value is carried as the
exact rational it denotes.  Every floating-point operation the code performs
on the values of interest is exact on doubles: math.Pow(2, e) for an integer
e in [-16, 15] is exact, dividing or multiplying a double by such a power of
two is exact up to overflow, and math.Round is exact.  Overflow of the
quotient volts / 2^e to an infinity makes the in-range test of the encoder
loop false, exactly as the corresponding huge rational makes it false, so
the branch behaviour of the model agrees with the code on every double.
-/

namespace Sic450

/-- An IEEE double: a finite value (carried exactly as a rational), one of
the two infinities, or NaN. -/
inductive FP where
  | finite (q : ℚ)
  | posInf
  | negInf
  | nan
deriving DecidableEq

/-- math.Pow(2, e) for an integer exponent e: an exact power of two. -/
def pow2 (e : ℤ) : ℚ := (2 : ℚ) ^ e

/-- volts / math.Pow(2, float64(exponent)).  Division of a finite double by
a power of two keeps the sign class; NaN propagates. -/
def FP.divPow2 : FP → ℤ → FP
  | .finite q, e => .finite (q / pow2 e)
  | .posInf, _ => .posInf
  | .negInf, _ => .negInf
  | .nan, _ => .nan

/-- The Go comparison m >= c for a double m and finite constant c.
False when m is NaN. -/
def FP.geQ : FP → ℚ → Bool
  | .finite q, c => decide (c ≤ q)
  | .posInf, _ => true
  | .negInf, _ => false
  | .nan, _ => false

/-- The Go comparison m < c for a double m and finite constant c.
False when m is NaN. -/
def FP.ltQ : FP → ℚ → Bool
  | .finite q, c => decide (q < c)
  | .posInf, _ => false
  | .negInf, _ => true
  | .nan, _ => false

/-- math.Round: round to nearest integer, ties away from zero. -/
def goRound (q : ℚ) : ℤ :=
  if q < 0 then -(⌊-q + 1/2⌋) else ⌊q + 1/2⌋

/-- int(math.Round(m)).  Only ever evaluated by the code on finite values
(the loop guard is false for infinities and NaN). -/
def FP.round : FP → ℤ
  | .finite q => goRound q
  | _ => 0

/-- The exponent candidates of the encoder loop, in loop order:
-15, -14, ..., 15. -/
def exponentsList : List ℤ := (List.range 31).map (fun i => (i : ℤ) - 15)

/-- The loop body of floatToLinear11: try each remaining exponent in order;
on the first e whose quotient m = volts / 2^e satisfies
m >= -1024 && m < 1024, stop with (e, int(math.Round(m))).  When the list is
exhausted the loop has fallen through: the loop variable has been
incremented to 16 and mantissa still holds its zero value. -/
def encLoop (volts : FP) : List ℤ → ℤ × ℤ
  | [] => (16, 0)
  | e :: rest =>
      let m := volts.divPow2 e
      if m.geQ (-1024) && m.ltQ 1024 then (e, m.round) else encLoop volts rest

/-- The (exponent, mantissa) pair floatToLinear11 computes for its input. -/
def floatToLinear11core (volts : FP) : ℤ × ℤ := encLoop volts exponentsList

/-- raw := uint16((int16(exponent)&0x1F)<<11) | uint16(uint16(mantissa)&0x07FF).
int16(exponent)&0x1F is the exponent mod 32 (a value in [0, 31]); shifted
left 11 bits it occupies bits 11-15, and uint16(mantissa)&0x07FF is the
mantissa mod 2048 in bits 0-10, so the bitwise or is a sum. -/
def rawWord (volts : FP) : ℕ :=
  ((floatToLinear11core volts).1 % 32).toNat * 2048
    + ((floatToLinear11core volts).2 % 2048).toNat

/-- floatToLinear11: the returned byte pair
[2]byte\x7bbyte(raw & 0xFF), byte((raw >> 8) & 0xFF)\x7d,
i.e. the low byte of the packed word first, the high byte second. -/
def floatToLinear11 (volts : FP) : ℕ × ℕ :=
  (rawWord volts % 256, rawWord volts / 256)

/-- linear11ToFloat on the 16-bit word already assembled from the two bytes:
exp := int8(raw >> 11), sign-corrected by 32 when above 15;
mant := int16(raw & 0x07FF), sign-corrected by 2048 when above 1023;
result float64(mant) * math.Pow(2, float64(exp)).  The leading mod 65536
records that raw is a uint16. -/
def decodeWord (raw : ℕ) : ℚ :=
  let w := raw % 65536
  let expBits := w / 2048
  let e : ℤ := if 15 < expBits then (expBits : ℤ) - 32 else (expBits : ℤ)
  let mantBits := w % 2048
  let m : ℤ := if 1023 < mantBits then (mantBits : ℤ) - 2048 else (mantBits : ℤ)
  (m : ℚ) * pow2 e

/-- linear11ToFloat(b): raw := binary.BigEndian.Uint16(b), so b[0] is the
high byte and b[1] the low byte.  The mod 256 records that each input is a
byte. -/
def linear11ToFloat (b0 b1 : ℕ) : ℚ :=
  decodeWord ((b0 % 256) * 256 + b1 % 256)

/-- PMBus command constants of main.go. -/
def VOUT_COMMAND : ℕ := 0x21

/-- READ_VOUT command byte. -/
def READ_VOUT : ℕ := 0x8B

/-- READ_IOUT command byte. -/
def READ_IOUT : ℕ := 0x8C

/-- The behaviour of the external bus primitives for one run:
unix.Write(fd, p) either fails or reports a byte count, and
unix.Read(fd, buf) either fails or returns the bytes it actually read
(at most the requested length; fewer on a short read). -/
structure BusOracle where
  writeRes : List ℕ → Except Unit ℕ
  readRes : ℕ → Except Unit (List ℕ)

/-- Bus-level events issued by the program, in order. -/
inductive MainEvent where
  | openBus
  | bindAddress (addr : ℤ)
  | busWrite (packet : List ℕ)
  | busRead (n : ℕ)
deriving DecidableEq

/-- The failure classes surfaced by main.go via log.Fatalf. -/
inductive MainError where
  | invalidAddress
  | invalidVoltage
  | ioFailure
deriving DecidableEq

/-- initDCandSetVoltage: encode the target voltage, build the packet
command byte then data[0] then data[1], issue one unix.Write, and return
its error.  The byte count reported by the write is bound to the blank
identifier and ignored.  The second component is the list of bus events the
call issues: always exactly the one write of that packet. -/
def initDCandSetVoltage (bus : BusOracle) (targetVoltage : FP) :
    Except Unit Unit × List MainEvent :=
  let data := floatToLinear11 targetVoltage
  let packet := [VOUT_COMMAND, data.1, data.2]
  match bus.writeRes packet with
  | .ok _ => (.ok (), [.busWrite packet])
  | .error e => (.error e, [.busWrite packet])

/-- readPMBusLinear11: write the single command byte (returning its error
on failure), read into a zero-initialised 2-byte buffer (returning the
error on failure), and decode the buffer.  The byte counts reported by
unix.Write and unix.Read are bound to blank identifiers and ignored, so a
successful read of fewer than 2 bytes leaves the tail of the buffer zero
and is decoded anyway.  The second component lists the bus events issued. -/
def readPMBusLinear11 (bus : BusOracle) (command : ℕ) :
    Except Unit ℚ × List MainEvent :=
  match bus.writeRes [command] with
  | .error e => (.error e, [.busWrite [command]])
  | .ok _ =>
    match bus.readRes 2 with
    | .error e => (.error e, [.busWrite [command], .busRead 2])
    | .ok bytes =>
      let buf := bytes.take 2 ++ List.replicate (2 - (bytes.take 2).length) 0
      (.ok (linear11ToFloat (buf.getD 0 0) (buf.getD 1 0)),
       [.busWrite [command], .busRead 2])

/-- The exact value of the double that the Go literal 0.3 denotes: the
nearest double to 3/10, namely (2^52 + 0x3333333333333) / 2^54, which is
strictly below 3/10.  The comparison in main is against this double, so the
double 0.3 itself is accepted. -/
def goLit03 : ℚ := 5404319552844595 / 2 ^ 54

/-- The flag validation at the top of main: the address check runs first,
the voltage check second, each aborting via log.Fatalf.  The lower voltage
bound is the exact double denoted by the Go literal 0.3; the literal 5.0
denotes exactly 5. -/
def mainValidate (addr : ℤ) (volt : ℚ) : Option MainError :=
  if addr < 0 ∨ 0x7F < addr then some .invalidAddress
  else if volt < goLit03 ∨ 5 < volt then some .invalidVoltage
  else none

/-- The environment of one run of main: the bus primitives, plus whether
os.OpenFile and the I2C_SLAVE ioctl succeed. -/
structure SysOracle where
  bus : BusOracle
  openOk : Bool
  bindOk : Bool

/-- main: validate the flags, open the bus device, bind the slave address,
set the voltage, then read back voltage and current.  Returns the outcome
and the ordered list of device/bus events issued.  Validation failures
abort before the device is even opened, so their event list is empty. -/
def mainRun (sys : SysOracle) (addr : ℤ) (volt : ℚ) :
    Except MainError Unit × List MainEvent :=
  match mainValidate addr volt with
  | some e => (.error e, [])
  | none =>
    if sys.openOk = false then (.error .ioFailure, []) else
    if sys.bindOk = false then (.error .ioFailure, [.openBus]) else
    let setV := initDCandSetVoltage sys.bus (.finite volt)
    let evs := MainEvent.openBus :: MainEvent.bindAddress addr :: setV.2
    match setV.1 with
    | .error _ => (.error .ioFailure, evs)
    | .ok _ =>
      let rv := readPMBusLinear11 sys.bus READ_VOUT
      match rv.1 with
      | .error _ => (.error .ioFailure, evs ++ rv.2)
      | .ok _ =>
        let ri := readPMBusLinear11 sys.bus READ_IOUT
        match ri.1 with
        | .error _ => (.error .ioFailure, evs ++ rv.2 ++ ri.2)
        | .ok _ => (.ok (), evs ++ rv.2 ++ ri.2)

/-- Modelled from the spec words of section 4.1 for comparison with the
code: search the exponent candidates in ascending order for the first
whose ROUNDED mantissa round(value / 2^E) lies in [-1024, 1024). -/
def specSearch (v : ℚ) : List ℤ → Option ℤ
  | [] => none
  | e :: rest =>
      if -1024 ≤ goRound (v / pow2 e) ∧ goRound (v / pow2 e) < 1024 then some e
      else specSearch v rest

/-- Modelled from the spec words of section 4.1 for comparison with the
code: the exponent the spec selects is the smallest E in [-15, 15] whose
rounded mantissa fits. -/
def specSelectExp (v : ℚ) : Option ℤ := specSearch v exponentsList

/-- Modelled from the spec words of section 4.1 for comparison with the
code: decode extracts the top 5 bits and bottom 11 bits as two's-complement
values (balanced residues mod 32 and mod 2048) and returns
mantissa times 2 to the exponent. -/
def specDecode (raw : ℕ) : ℚ :=
  ((Int.bmod (raw % 2048 : ℕ) 2048 : ℤ) : ℚ) * pow2 (Int.bmod (raw / 2048 : ℕ) 32)

/-- A concrete environment where every primitive succeeds: writes report 3
bytes, reads return the 2-byte reply 0x0B 0x00. -/
def sysAllOk : SysOracle :=
  { bus := { writeRes := fun _ => .ok 3, readRes := fun _ => .ok [0x0B, 0x00] },
    openOk := true, bindOk := true }

/-- A bus whose read primitive returns a single byte 0x12 with no error: a
short read. -/
def shortReadBus : BusOracle :=
  { writeRes := fun _ => .ok 1, readRes := fun _ => .ok [0x12] }

/-- A bus whose write primitive reports 2 bytes written with no error: a
short write of the 3-byte setpoint packet. -/
def shortWriteBus : BusOracle :=
  { writeRes := fun _ => .ok 2, readRes := fun _ => .ok [] }

set_option maxRecDepth 8000

/-- The packed word is always a 16-bit value. -/
theorem rawWord_lt (v : FP) : rawWord v < 65536 := by
  unfold rawWord
  have h1 := Int.emod_nonneg (floatToLinear11core v).1 (by norm_num : (32 : ℤ) ≠ 0)
  have h2 := Int.emod_lt_of_pos (floatToLinear11core v).1 (by norm_num : (0 : ℤ) < 32)
  have h3 := Int.emod_nonneg (floatToLinear11core v).2 (by norm_num : (2048 : ℤ) ≠ 0)
  have h4 := Int.emod_lt_of_pos (floatToLinear11core v).2 (by norm_num : (0 : ℤ) < 2048)
  omega

/-- When the in-range test fails on every candidate exponent, the loop
falls through with exponent 16 and mantissa 0. -/
theorem encLoop_all_fail (v : FP) (l : List ℤ)
    (h : ∀ e ∈ l, ((v.divPow2 e).geQ (-1024) && (v.divPow2 e).ltQ 1024) = false) :
    encLoop v l = (16, 0) := by
  induction l with
  | nil => rfl
  | cons e rest ih =>
      have he := h e (List.mem_cons_self e rest)
      simp only [encLoop, he, Bool.false_eq_true, if_false]
      exact ih fun x hx => h x (List.mem_cons_of_mem e hx)

/-- Claim C1 (code bug evidence): the claimed round-trip error bound fails
on the code.  At input 1023.5 the encoder selects exponent 0, but only the
unrounded quotient is range-checked: the rounded mantissa is 1024, which
does not fit the 11-bit field, so the packed word decodes to -1024; the
round-trip error is 2047.5 instead of the claimed at most half of 2 to the
selected exponent. -/
theorem claim1_roundtrip_bound_fails :
    (floatToLinear11core (.finite (2047/2))).1 = 0 ∧
    (floatToLinear11core (.finite (2047/2))).2 = 1024 ∧
    decodeWord (rawWord (.finite (2047/2))) = -1024 ∧
    pow2 0 / 2 < |decodeWord (rawWord (.finite (2047/2))) - 2047/2| := by
  have hcore : floatToLinear11core (FP.finite (2047/2)) = (0, 1024) := by
    norm_num [floatToLinear11core, exponentsList, encLoop, FP.divPow2, FP.geQ,
      FP.ltQ, FP.round, goRound, pow2, List.range_succ]
  have hraw : rawWord (FP.finite (2047/2)) = 1024 := by
    rw [rawWord, hcore]
    decide
  have hdec : decodeWord (rawWord (FP.finite (2047/2))) = -1024 := by
    norm_num [hraw, decodeWord, pow2]
  refine ⟨by rw [hcore], by rw [hcore], hdec, ?_⟩
  rw [hdec]
  rw [abs_of_nonpos (by norm_num)]
  norm_num [pow2]

/-- Claim C2 (code bug evidence): the code range-checks the quotient before
rounding, the spec after.  At input -1024.25 the spec selects exponent 0,
whose rounded mantissa -1024 fits, but the code skips exponent 0 because
the unrounded quotient -1024.25 is below -1024, and selects exponent 1
instead. -/
theorem claim2_selection_differs_from_spec :
    specSelectExp (-4097/4) = some 0 ∧
    (floatToLinear11core (.finite (-4097/4))).1 = 1 ∧
    (floatToLinear11core (.finite (-4097/4))).2 = -512 := by
  have hspec : specSelectExp (-4097/4) = some 0 := by
    norm_num [specSelectExp, exponentsList, specSearch, goRound, pow2,
      List.range_succ]
  have hcore : floatToLinear11core (FP.finite (-4097/4)) = (1, -512) := by
    norm_num [floatToLinear11core, exponentsList, encLoop, FP.divPow2, FP.geQ,
      FP.ltQ, FP.round, goRound, pow2, List.range_succ]
  exact ⟨hspec, by rw [hcore], by rw [hcore]⟩

/-- Claim C4 (code bug evidence): for a value no exponent can represent the
encoder does not fail at all: it returns the fabricated byte pair 0x00 0x80
(the word 0x8000), which the decoder maps to 0.  There is no OutOfRange
error path in the function. -/
theorem claim4_no_out_of_range_failure :
    floatToLinear11core (.finite (2^26)) = (16, 0) ∧
    floatToLinear11 (.finite (2^26)) = (0x00, 0x80) ∧
    decodeWord (0x80 * 256 + 0x00) = 0 := by
  have hcore : floatToLinear11core (FP.finite (2^26)) = (16, 0) := by
    norm_num [floatToLinear11core, exponentsList, encLoop, FP.divPow2, FP.geQ,
      FP.ltQ, FP.round, goRound, pow2, List.range_succ]
  refine ⟨hcore, ?_, by norm_num [decodeWord, pow2]⟩
  rw [floatToLinear11, rawWord, hcore]
  decide

/-- Claim C5 (code bug evidence): when the read primitive returns a single
byte 0x12 with no error, readPMBusLinear11 ignores the byte count, decodes
the buffer whose second byte is still the zero it was initialised with, and
returns the fabricated value 2048 instead of an IOError. -/
theorem claim5_short_read_decoded :
    (readPMBusLinear11 shortReadBus READ_VOUT).1 = .ok (linear11ToFloat 0x12 0x00) ∧
    linear11ToFloat 0x12 0x00 = 2048 := by
  constructor
  · rfl
  · norm_num [linear11ToFloat, decodeWord, pow2]

/-- Claim C7 (code bug evidence): when the write primitive reports only 2 of
the 3 requested bytes written, with no error, initDCandSetVoltage still
returns success: the byte count is discarded, so a short write is treated
as a completed transaction. -/
theorem claim7_short_write_reported_ok :
    (initDCandSetVoltage shortWriteBus (.finite 1)).1 = .ok () ∧
    (initDCandSetVoltage shortWriteBus (.finite 1)).2 =
      [.busWrite [0x21, 0x00, 0xBA]] := by
  have henc : floatToLinear11 (FP.finite 1) = (0x00, 0xBA) := by
    have hcore : floatToLinear11core (FP.finite 1) = (-9, 512) := by
      norm_num [floatToLinear11core, exponentsList, encLoop, FP.divPow2, FP.geQ,
        FP.ltQ, FP.round, goRound, pow2, List.range_succ]
    rw [floatToLinear11, rawWord, hcore]
    decide
  constructor
  · rfl
  · rw [initDCandSetVoltage]
    simp [henc, shortWriteBus, VOUT_COMMAND]

/-- The balanced residue mod 32 of a 5-bit value agrees with the decoder
conditional subtraction of 32. -/
theorem bmod_five_bits (n : ℕ) (h : n < 32) :
    Int.bmod (n : ℤ) 32 = if 15 < n then (n : ℤ) - 32 else (n : ℤ) := by
  have h1 : (n : ℤ) % ((32 : ℕ) : ℤ) = (n : ℤ) :=
    Int.emod_eq_of_lt (by positivity) (by exact_mod_cast h)
  unfold Int.bmod
  rw [h1]
  norm_num
  split_ifs <;> omega

/-- The balanced residue mod 2048 of an 11-bit value agrees with the
decoder conditional subtraction of 2048. -/
theorem bmod_eleven_bits (n : ℕ) (h : n < 2048) :
    Int.bmod (n : ℤ) 2048 = if 1023 < n then (n : ℤ) - 2048 else (n : ℤ) := by
  have h1 : (n : ℤ) % ((2048 : ℕ) : ℤ) = (n : ℤ) :=
    Int.emod_eq_of_lt (by positivity) (by exact_mod_cast h)
  unfold Int.bmod
  rw [h1]
  norm_num
  split_ifs <;> omega

/-- Claim C3: decode is total and matches the reference definition.  For
every 16-bit word the decoder returns the two's-complement top-5-bit
exponent and bottom-11-bit mantissa as mantissa times 2 to the exponent
(stated via balanced residues, the spec formulation of sign extension), and
the result is bounded by 2 to the 25, hence a finite double. -/
theorem claim3_decode_total_matches_reference (raw : ℕ) (h : raw < 65536) :
    decodeWord raw = specDecode raw ∧ |decodeWord raw| ≤ 2 ^ 25 := by
  have hw : raw % 65536 = raw := Nat.mod_eq_of_lt h
  have hexp : raw / 2048 < 32 := by omega
  have hmant : raw % 2048 < 2048 := by omega
  constructor
  · unfold decodeWord specDecode
    rw [hw, bmod_five_bits _ hexp, bmod_eleven_bits _ hmant]
  · unfold decodeWord
    rw [hw]
    have hb : |(if 1023 < raw % 2048 then ((raw % 2048 : ℕ) : ℤ) - 2048
        else ((raw % 2048 : ℕ) : ℤ) : ℤ)| ≤ 1024 := by
      split_ifs <;> rw [abs_le] <;> omega
    have he : (if 15 < raw / 2048 then ((raw / 2048 : ℕ) : ℤ) - 32
        else ((raw / 2048 : ℕ) : ℤ) : ℤ) ≤ 15 := by
      split_ifs <;> omega
    set m : ℤ := if 1023 < raw % 2048 then ((raw % 2048 : ℕ) : ℤ) - 2048
        else ((raw % 2048 : ℕ) : ℤ) with hm
    set e : ℤ := if 15 < raw / 2048 then ((raw / 2048 : ℕ) : ℤ) - 32
        else ((raw / 2048 : ℕ) : ℤ) with hedef
    have hpos : (0 : ℚ) < pow2 e := zpow_pos (by norm_num) e
    have habs : |((m : ℤ) : ℚ)| ≤ 1024 := by
      rw [← Int.cast_abs]
      exact_mod_cast hb
    have hple : pow2 e ≤ 2 ^ 25 / 1024 := by
      have : pow2 e ≤ pow2 15 := zpow_le_zpow_right₀ (by norm_num) he
      calc pow2 e ≤ pow2 15 := this
        _ = 2 ^ 25 / 1024 := by norm_num [pow2]
    calc |((m : ℤ) : ℚ) * pow2 e| = |((m : ℤ) : ℚ)| * |pow2 e| := abs_mul _ _
      _ = |((m : ℤ) : ℚ)| * pow2 e := by rw [abs_of_pos hpos]
      _ ≤ 1024 * (2 ^ 25 / 1024) :=
          mul_le_mul habs hple (le_of_lt hpos) (by norm_num)
      _ = 2 ^ 25 := by norm_num

/-- Witness for claim C3 at the word 0x8BB9. -/
theorem claim3_witness :
    (0x8BB9 : ℕ) < 65536 ∧
    (decodeWord 0x8BB9 = specDecode 0x8BB9 ∧ |decodeWord 0x8BB9| ≤ 2 ^ 25) :=
  ⟨by norm_num, claim3_decode_total_matches_reference 0x8BB9 (by norm_num)⟩

/-- Claim C6: every call of initDCandSetVoltage issues exactly one bus
write, whose payload is the 3-byte packet made of the VOUT command byte
followed by the two bytes of the encoded LINEAR11 word, whatever the bus
does and whatever the target voltage is (the encode step never fails). -/
theorem claim6_single_three_byte_write (bus : BusOracle) (v : FP) :
    (initDCandSetVoltage bus v).2 =
      [.busWrite [VOUT_COMMAND, (floatToLinear11 v).1, (floatToLinear11 v).2]] ∧
    ([VOUT_COMMAND, (floatToLinear11 v).1, (floatToLinear11 v).2] : List ℕ).length = 3 := by
  constructor
  · cases h : bus.writeRes [VOUT_COMMAND, (floatToLinear11 v).1, (floatToLinear11 v).2] with
    | ok n => simp [initDCandSetVoltage, h]
    | error e => simp [initDCandSetVoltage, h]
  · rfl

/-- Witness for claim C6 on a concrete bus and voltage. -/
theorem claim6_witness :
    (initDCandSetVoltage shortWriteBus (.finite (9/5))).2 =
      [.busWrite [VOUT_COMMAND, (floatToLinear11 (.finite (9/5))).1,
        (floatToLinear11 (.finite (9/5))).2]] :=
  (claim6_single_three_byte_write shortWriteBus (.finite (9/5))).1

/-- Claim C9: the encoder returns the packed word low byte first, the
decoder reads its two bytes as a big-endian word, so decoding the byte pair
the encoder produced decodes the byte-swapped word; at input 1.8 this
differs from decoding the word that was packed. -/
theorem claim9_byte_order_asymmetry (v : FP) :
    (floatToLinear11 v).1 = rawWord v % 256 ∧
    (floatToLinear11 v).2 = rawWord v / 256 ∧
    linear11ToFloat (floatToLinear11 v).1 (floatToLinear11 v).2
      = decodeWord ((rawWord v % 256) * 256 + rawWord v / 256) ∧
    linear11ToFloat (floatToLinear11 (.finite (9/5))).1 (floatToLinear11 (.finite (9/5))).2
      ≠ decodeWord (rawWord (.finite (9/5))) := by
  have hdiv : rawWord v / 256 < 256 := by
    have := rawWord_lt v
    omega
  refine ⟨rfl, rfl, ?_, ?_⟩
  · unfold linear11ToFloat floatToLinear11
    rw [Nat.mod_mod_of_dvd _ (by norm_num), Nat.mod_eq_of_lt hdiv]
  · have hcore : floatToLinear11core (FP.finite (9/5)) = (-9, 922) := by
      norm_num [floatToLinear11core, exponentsList, encLoop, FP.divPow2, FP.geQ,
        FP.ltQ, FP.round, goRound, pow2, List.range_succ]
    have hraw : rawWord (FP.finite (9/5)) = 48026 := by
      rw [rawWord, hcore]
      decide
    have h1 : floatToLinear11 (FP.finite (9/5)) = (154, 187) := by
      rw [floatToLinear11, hraw]
    rw [h1, hraw]
    have h2 : linear11ToFloat 154 187 = 699/8192 := by
      norm_num [linear11ToFloat, decodeWord, pow2]
    have h3 : decodeWord 48026 = 461/256 := by
      norm_num [decodeWord, pow2]
    rw [h2, h3]
    norm_num

/-- Witness for claim C9 at the voltage 1. -/
theorem claim9_witness :
    (floatToLinear11 (.finite 1)).1 = rawWord (.finite 1) % 256 ∧
    (floatToLinear11 (.finite 1)).2 = rawWord (.finite 1) / 256 :=
  ⟨(claim9_byte_order_asymmetry (.finite 1)).1,
   (claim9_byte_order_asymmetry (.finite 1)).2.1⟩

/-- Claim C8: the flag checks of main accept PMBus addresses 0x00 and 0x7F,
reject 0x80 and -1 as invalid addresses, reject any target voltage outside
the 0.3 to 5.0 volt domain (no clamping: the run aborts with an error), and
any validation failure aborts the run with an empty event list, i.e. before
the bus device is opened and before any bus write or read.  The domain
boundary is the exact double denoted by the code literal 0.3, which is
itself accepted. -/
theorem claim8_validation_before_bus (sys : SysOracle) (a : ℤ) (v : ℚ) :
    mainValidate 0x00 1 = none ∧
    mainValidate 0x7F 1 = none ∧
    mainValidate 0x80 v = some .invalidAddress ∧
    mainValidate (-1) v = some .invalidAddress ∧
    mainValidate 0x40 goLit03 = none ∧
    ((v < goLit03 ∨ 5 < v) → 0 ≤ a → a ≤ 0x7F →
      mainValidate a v = some .invalidVoltage) ∧
    (∀ e, mainValidate a v = some e → mainRun sys a v = (.error e, [])) := by
  refine ⟨?_, ?_, ?_, ?_, ?_, ?_, ?_⟩
  · norm_num [mainValidate, goLit03]
  · norm_num [mainValidate, goLit03]
  · norm_num [mainValidate]
  · norm_num [mainValidate]
  · norm_num [mainValidate, goLit03]
  · intro h1 h2 h3
    unfold mainValidate
    rw [if_neg (by omega), if_pos h1]
  · intro e he
    unfold mainRun
    rw [he]

/-- The double 0.3 is strictly below the rational 3/10: the single
representable value on which the code comparison and a comparison against
the exact rational 3/10 would disagree. -/
theorem goLit03_lt_three_tenths : goLit03 < 3/10 := by
  norm_num [goLit03]

/-- Witness for claim C8: address 5 with the out-of-domain voltage 6 is
rejected before any bus event. -/
theorem claim8_witness :
    mainValidate 5 6 = some .invalidVoltage ∧
    mainRun sysAllOk 5 6 = (.error .invalidVoltage, []) := by
  have h := claim8_validation_before_bus sysAllOk 5 6
  have h5 : mainValidate 5 6 = some .invalidVoltage :=
    h.2.2.2.2.2.1 (Or.inr (by norm_num)) (by norm_num) (by norm_num)
  exact ⟨h5, h.2.2.2.2.2.2 .invalidVoltage h5⟩

/-- The candidate exponents are exactly -15 through 15 in ascending
order. -/
theorem exponentsList_eq :
    exponentsList = [-15, -14, -13, -12, -11, -10, -9, -8, -7, -6, -5, -4,
      -3, -2, -1, 0, 1, 2, 3, 4, 5, 6, 7, 8, 9, 10, 11, 12, 13, 14, 15] := by
  rfl

/-- Claim C10: the encoder is total.  NaN and both infinities fail the
in-range test at every exponent, and so does any finite value whose
quotient fits at no candidate exponent; in all those cases the loop falls
through with exponent 16 and mantissa 0 and the function returns the byte
pair 0x00 0x80 (the packed word 0x8000) with no error signalled. -/
theorem claim10_encode_total (q : ℚ)
    (h : ∀ e ∈ exponentsList, ¬(-1024 ≤ q / pow2 e ∧ q / pow2 e < 1024)) :
    floatToLinear11 .nan = (0x00, 0x80) ∧
    floatToLinear11 .posInf = (0x00, 0x80) ∧
    floatToLinear11 .negInf = (0x00, 0x80) ∧
    floatToLinear11core (.finite q) = (16, 0) ∧
    floatToLinear11 (.finite q) = (0x00, 0x80) := by
  have hpack : ∀ w : FP, floatToLinear11core w = (16, 0) →
      floatToLinear11 w = (0x00, 0x80) := by
    intro w hw
    rw [floatToLinear11, rawWord, hw]
    decide
  have hnan : floatToLinear11core .nan = (16, 0) :=
    encLoop_all_fail _ _ (fun e _ => rfl)
  have hpos : floatToLinear11core .posInf = (16, 0) :=
    encLoop_all_fail _ _ (fun e _ => rfl)
  have hneg : floatToLinear11core .negInf = (16, 0) :=
    encLoop_all_fail _ _ (fun e _ => rfl)
  have hfin : floatToLinear11core (.finite q) = (16, 0) := by
    refine encLoop_all_fail _ _ ?_
    intro e he
    have h2 := h e he
    by_cases hge : -1024 ≤ q / pow2 e
    · have hlt : ¬(q / pow2 e < 1024) := fun hl => h2 ⟨hge, hl⟩
      simp [FP.divPow2, FP.geQ, FP.ltQ, hge, hlt]
    · simp [FP.divPow2, FP.geQ, FP.ltQ, hge]
  exact ⟨hpack _ hnan, hpack _ hpos, hpack _ hneg, hfin, hpack _ hfin⟩

/-- Witness for claim C10 at the finite value 2 to the 26, which exceeds
the largest representable magnitude. -/
theorem claim10_witness :
    (∀ e ∈ exponentsList,
      ¬(-1024 ≤ (2^26 : ℚ) / pow2 e ∧ (2^26 : ℚ) / pow2 e < 1024)) ∧
    floatToLinear11 (.finite (2^26)) = (0x00, 0x80) := by
  have hy : ∀ e ∈ exponentsList,
      ¬(-1024 ≤ (2^26 : ℚ) / pow2 e ∧ (2^26 : ℚ) / pow2 e < 1024) := by
    intro e he
    rw [exponentsList_eq] at he
    fin_cases he <;> norm_num [pow2]
  exact ⟨hy, (claim10_encode_total (2^26) hy).2.2.2.2⟩

end Sic450
